import Mathlib

/-!
# Verification of the training/evaluation pipeline of `src/train.py`

This file gives a shallow embedding of the training orchestration code of the
repository (`src/train.py`) and proves the specified properties of it.

Modelling conventions:

* Machine floats are modelled as exact rationals `ℚ`.  NumPy's non-finite
  results (NaN / ±inf, which arise exactly from division by zero here) are
  modelled as `Option ℚ`, with `none` standing for the non-finite value.
* Images are abstracted to one value per frame position: the per-pixel arrays
  `anom_scores[f]` (shape 227×227 in the code) become one rational per frame.
  All control flow (allocation, guarding by `last`, increments, division by
  the inspection count) is preserved exactly.
* NumPy in-place array updates `a[i] += x` become `List.set`; an out-of-range
  index raises in NumPy, while `List.set` is the identity — every theorem's
  preconditions keep all indices in range, so the two agree on the inputs
  considered.
* The data source (`data.get_test_batch`) yields a finite list of batches and
  then the end marker `None`; it is embedded as the `List` of batches before
  the marker.  `data._tvol` is the window length `T`.  The sorted frame-file
  listing of test directory `s` (`fnames`) is embedded by its length
  `seqLens[s]` (only `len(fnames)` and the indices matter to the loop).
* The model adapter is opaque: each batch item carries the slices the loop
  reads — `frame_error[i]` (length `T`), and `reconstruction[i,:,:,·]` /
  `test_batch[i,:,:,·]` as one value per window position.
* File persistence, logging, plotting, and the sklearn ROC computations are
  external I/O outside the modelled state; the values the code would persist
  are kept as fields of the state.
-/

set_option maxHeartbeats 1600000

/-- One item of a test batch: the slices of `frame_error`, `reconstruction`
and `test_batch` that the evaluation loop reads for one window. -/
structure TestItem where
  frameErr : List ℚ
  recon : List ℚ
  inp : List ℚ
  deriving DecidableEq, Repr

/-- The mutable state of the evaluation loop in `test` (`src/train.py`,
lines 52-87): the cursor `(seq_idx, f_idx)`, the current frame-file listing
length, the accumulator arena, and the values of the boundary assertions and
per-sequence saved score maps.  `batchCount` counts consumed batches. -/
@[ext] structure EvalState where
  seqIdx : Nat
  fIdx : Nat
  fnamesLen : Nat
  perFrameError : List (List (List ℚ))
  anomScores : List ℚ
  inspectionCount : List Nat
  asserts : List Bool
  savedAnomScores : List (List ℚ)
  batchCount : Nat
  deriving DecidableEq, Repr

/-- `inspection_count[i] += 1`. -/
def listInc (l : List Nat) (i : Nat) : List Nat :=
  l.set i (l.getD i 0 + 1)

/-- `anom_scores[i] += x`. -/
def addAt (l : List ℚ) (i : Nat) (x : ℚ) : List ℚ :=
  l.set i (l.getD i 0 + x)

/-- `per_frame_error[s][f].append(x)`. -/
def appendAt (pfe : List (List (List ℚ))) (s f : Nat) (x : ℚ) :
    List (List (List ℚ)) :=
  pfe.set s ((pfe.getD s []).set f ((pfe.getD s []).getD f [] ++ [x]))

/-- Body of the inner loop `for j in range(frame_error[i].shape[0])`
(`src/train.py`, lines 68-72): when `last`, add the squared reconstruction
residual to the frame's anomaly-score slot; always increment the frame's
inspection count and append the window's scalar error contribution. -/
def processWindowPos (last : Bool) (it : TestItem) (st : EvalState) (j : Nat) :
    EvalState :=
  let resid := (it.recon.getD j 0 - it.inp.getD j 0) ^ 2
  let st := if last then
      { st with anomScores := addAt st.anomScores (st.fIdx + j) resid }
    else st
  let st := { st with inspectionCount := listInc st.inspectionCount (st.fIdx + j) }
  let pfe := appendAt st.perFrameError st.seqIdx (st.fIdx + j) (it.frameErr.getD j 0)
  { st with perFrameError := pfe }

/-- Accumulator allocation at `f_idx == 0` (`src/train.py`, lines 63-67):
`per_frame_error[seq_idx]`, `anom_scores` and `inspection_count` are all
(re-)allocated from the current `fnames` listing, with no regard to `last`. -/
def allocArrays (st : EvalState) : EvalState :=
  if st.fIdx = 0 then
    { st with
      perFrameError := st.perFrameError.set st.seqIdx (List.replicate st.fnamesLen []),
      anomScores := List.replicate st.fnamesLen 0,
      inspectionCount := List.replicate st.fnamesLen 0 }
  else st

/-- Cursor advance at the end of the item body (`src/train.py`, lines 73-87):
advance `f_idx` while another window fits, else move to the next sequence;
on a transition, re-list the frame files only under the (inverted, hence
dead) guard `len(dirs) < seq_idx`, record the boundary assertion
`np.all(0 < inspection_count)`, and when `last` save the anomaly-score map
normalized by the inspection counts. -/
def advanceCursor (tvol : Nat) (seqLens : List Nat) (last : Bool)
    (st : EvalState) : EvalState :=
  if st.fIdx < st.fnamesLen - tvol then
    { st with fIdx := st.fIdx + 1 }
  else
    let st := { st with seqIdx := st.seqIdx + 1 }
    let st := if seqLens.length < st.seqIdx then
        { st with fnamesLen := seqLens.getD st.seqIdx 0 }
      else st
    let ok := st.inspectionCount.all (fun c => decide (0 < c))
    let st := { st with fIdx := 0, asserts := st.asserts ++ [ok] }
    if last then
      let m := st.anomScores.zipWith (fun a c => a / (c : ℚ)) st.inspectionCount
      { st with savedAnomScores := st.savedAnomScores ++ [m] }
    else st

/-- Body of the batch-item loop `for i in range(test_batch.shape[0])`
(`src/train.py`, lines 62-87): allocate fresh accumulators when
`f_idx == 0`, run the window loop, then advance the cursor. -/
def processItem (tvol : Nat) (seqLens : List Nat) (last : Bool)
    (st : EvalState) (it : TestItem) : EvalState :=
  advanceCursor tvol seqLens last
    ((List.range it.frameErr.length).foldl (processWindowPos last it)
      (allocArrays st))

/-- One iteration of the `while True` loop (`src/train.py`, lines 55-87):
consume one batch, re-list the current sequence's frame files, and run the
item loop. -/
def processBatch (tvol : Nat) (seqLens : List Nat) (last : Bool)
    (st : EvalState) (b : List TestItem) : EvalState :=
  let st := { st with fnamesLen := seqLens.getD st.seqIdx 0,
                      batchCount := st.batchCount + 1 }
  b.foldl (processItem tvol seqLens last) st

/-- State at entry of the `while True` loop (`src/train.py`, lines 52-54):
`per_frame_error = [[] for _ in range(len(dirs))]`, cursor at `(0, 0)`;
`fnames`, `anom_scores` and `inspection_count` are not yet assigned. -/
def initState (numDirs : Nat) : EvalState :=
  { seqIdx := 0, fIdx := 0, fnamesLen := 0,
    perFrameError := List.replicate numDirs [],
    anomScores := [], inspectionCount := [], asserts := [],
    savedAnomScores := [], batchCount := 0 }

/-- The whole evaluation loop of `test`: fold over the batches the data
source yields before the `None` end marker. -/
def runTestPass (tvol : Nat) (seqLens : List Nat) (last : Bool)
    (batches : List (List TestItem)) : EvalState :=
  batches.foldl (processBatch tvol seqLens last) (initState seqLens.length)

/-- The batch loop with the error path of `src/train.py`, line 59: after a
batch has been obtained from the data source, the re-listing
`dirs[seq_idx]` raises an uncaught `IndexError` when `seq_idx` is not a
valid test-directory index, aborting the run before the batch is
processed.  Under this guard all further indices of the iteration are in
range on the inputs considered by the theorems below (the dead line-77
guard needs `seq_idx` past the directory list, which this check rules out
at every batch top). -/
def runBatchesE (tvol : Nat) (seqLens : List Nat) (last : Bool) :
    EvalState → List (List TestItem) → Except String EvalState
  | st, [] => Except.ok st
  | st, b :: bs =>
    if seqLens.length ≤ st.seqIdx then Except.error "IndexError"
    else runBatchesE tvol seqLens last (processBatch tvol seqLens last st b) bs

/-- The evaluation loop of `test` including its `IndexError` abort path. -/
def runTestPassE (tvol : Nat) (seqLens : List Nat) (last : Bool)
    (batches : List (List TestItem)) : Except String EvalState :=
  runBatchesE tvol seqLens last (initState seqLens.length) batches

/-- `np.min` over a nonempty vector (the empty case raises in NumPy; all
theorems below keep the vector nonempty). -/
def npMin : List ℚ → ℚ
  | [] => 0
  | x :: xs => xs.foldl min x

/-- `np.max` over a nonempty vector. -/
def npMax : List ℚ → ℚ
  | [] => 0
  | x :: xs => xs.foldl max x

/-- IEEE division as NumPy performs it elementwise: a zero divisor yields a
non-finite value (NaN or ±inf) together with a runtime warning, not an
exception; the non-finite outcome is modelled as `none`. -/
def nanDiv (a b : ℚ) : Option ℚ :=
  if b = 0 then none else some (a / b)

/-- `per_video_normalize` (`src/train.py`, lines 120-124):
`err[i] = (pfe[i] - np.min(pfe[i])) / (np.max(pfe[i]) - np.min(pfe[i]))`,
each sequence rescaled by its own minimum and maximum. -/
def per_video_normalize (pfe : List (List ℚ)) : List (List (Option ℚ)) :=
  pfe.map (fun v => v.map (fun x => nanDiv (x - npMin v) (npMax v - npMin v)))

/-- The state threaded through the training loop of `train`
(`src/train.py`, lines 17-33): the diagnostic histories, the best AUC so
far, and the iteration indices at which `test` ran (`evalSteps`) and at
which `model.save_model` ran (`saves`). -/
@[ext] structure TrainState where
  losses : List ℚ
  frame_aucs : List ℚ
  pixel_aucs : List ℚ
  valid_losses : List ℚ
  saves : List Nat
  best_auc : ℚ
  trainSteps : Nat
  evalSteps : List Nat
  deriving DecidableEq, Repr

/-- Initial bindings of `train` (`src/train.py`, lines 17-18): empty
histories and `best_auc = 0`. -/
def trainInit : TrainState :=
  { losses := [], frame_aucs := [], pixel_aucs := [], valid_losses := [],
    saves := [], best_auc := 0, trainSteps := 0, evalSteps := [] }

/-- One iteration `i` of the loop `for i in range(num_iteration + 1)`
(`src/train.py`, lines 19-33).  The opaque model/data pair is embedded by
the functions `lossF`, `aucF`, `vlossF` giving the loss of the training step
and the metrics `test` would return at iteration `i`. -/
def trainStep (printEvery : Nat) (lossF aucF vlossF : Nat → ℚ)
    (st : TrainState) (i : Nat) : TrainState :=
  let st := { st with trainSteps := st.trainSteps + 1,
                      losses := st.losses ++ [lossF i] }
  if i % printEvery = 0 then
    let auc := aucF i
    let st := { st with evalSteps := st.evalSteps ++ [i],
                        frame_aucs := st.frame_aucs ++ [auc],
                        valid_losses := st.valid_losses ++ [vlossF i] }
    if st.best_auc < auc then
      { st with best_auc := auc, saves := st.saves ++ [i] }
    else st
  else st

/-- The whole training loop of `train` before the final persistence block
(`src/train.py`, lines 17-33). -/
def trainRun (numIteration printEvery : Nat) (lossF aucF vlossF : Nat → ℚ) :
    TrainState :=
  (List.range (numIteration + 1)).foldl (trainStep printEvery lossF aucF vlossF)
    trainInit

/-- Number of windows among the first `k` (stride-1 windows of length `T`
starting at `0, 1, ...`) that cover frame `f`. -/
def cov (k T f : Nat) : Nat :=
  ((Finset.range k).filter (fun w => w ≤ f ∧ f < w + T)).card

example : cov 3 2 1 = 2 := by decide
example : (runTestPass 2 [3] false
    [[⟨[1, 2], [0, 0], [0, 0]⟩], [⟨[3, 4], [0, 0], [0, 0]⟩]]).inspectionCount
    = [1, 2, 1] := by decide

/-! ## Basic facts about the array-update helpers -/

theorem getD_set_self {α : Type} (l : List α) (i : Nat) (a d : α) (h : i < l.length) :
    (l.set i a).getD i d = a := by
  rw [List.getD_eq_getElem?_getD, List.getElem?_set_self h]
  rfl

theorem getD_set_ne {α : Type} (l : List α) (i j : Nat) (a d : α) (h : i ≠ j) :
    (l.set i a).getD j d = l.getD j d := by
  rw [List.getD_eq_getElem?_getD, List.getElem?_set_ne h, ← List.getD_eq_getElem?_getD]

theorem listInc_length (l : List Nat) (i : Nat) : (listInc l i).length = l.length := by
  simp [listInc]

theorem listInc_getD (l : List Nat) (i : Nat) (hi : i < l.length) (f : Nat) :
    (listInc l i).getD f 0 = l.getD f 0 + (if f = i then 1 else 0) := by
  simp only [listInc, List.getD_eq_getElem?_getD, List.getElem?_set]
  by_cases h : i = f
  · subst h; simp [hi]
  · have h2 : ¬f = i := fun hc => h (Eq.symm hc)
    simp [h, h2]

theorem addAt_length (l : List ℚ) (i : Nat) (x : ℚ) : (addAt l i x).length = l.length := by
  simp [addAt]

theorem getD_mem_of_lt {α : Type} (l : List α) (i : Nat) (d : α) (hi : i < l.length) :
    l.getD i d ∈ l := by
  rw [List.getD_eq_getElem?_getD, List.getElem?_eq_getElem hi]
  simp only [Option.getD_some]
  exact List.getElem_mem hi

theorem addAt_of_zero (l : List ℚ) (i : Nat) (hl : ∀ q ∈ l, q = 0) :
    ∀ q ∈ addAt l i 0, q = 0 := by
  intro q hq
  rcases List.mem_or_eq_of_mem_set hq with h | h
  · exact hl q h
  · have hz : l.getD i 0 = 0 := by
      rcases Nat.lt_or_ge i l.length with hi | hi
      · exact hl _ (getD_mem_of_lt l i 0 hi)
      · exact List.getD_eq_default _ _ hi
    rw [h, hz, add_zero]

theorem appendAt_length (p : List (List (List ℚ))) (s f : Nat) (x : ℚ) :
    (appendAt p s f x).length = p.length := by
  simp [appendAt]

theorem appendAt_getD_length (p : List (List (List ℚ))) (s f : Nat) (x : ℚ)
    (hs : s < p.length) :
    ((appendAt p s f x).getD s []).length = (p.getD s []).length := by
  unfold appendAt
  rw [getD_set_self _ _ _ _ hs, List.length_set]

/-! ## Window coverage counting -/

theorem cov_zero (T f : Nat) : cov 0 T f = 0 := by simp [cov]

theorem cov_succ (k T f : Nat) :
    cov (k + 1) T f = cov k T f + (if k ≤ f ∧ f < k + T then 1 else 0) := by
  unfold cov
  rw [Finset.range_succ, Finset.filter_insert]
  split
  · rw [Finset.card_insert_of_not_mem (by simp)]
  · simp

theorem cov_le (k T f : Nat) : cov k T f ≤ T := by
  have hsub : (Finset.range k).filter (fun w => w ≤ f ∧ f < w + T) ⊆
      Finset.Ico (f + 1 - T) (f + 1) := by
    intro w hw
    simp only [Finset.mem_filter, Finset.mem_range] at hw
    simp only [Finset.mem_Ico]
    omega
  calc cov k T f ≤ (Finset.Ico (f + 1 - T) (f + 1)).card := Finset.card_le_card hsub
    _ ≤ T := by rw [Nat.card_Ico]; omega

theorem cov_pos (T L f : Nat) (hT : 1 ≤ T) (hTL : T ≤ L) (hf : f < L) :
    1 ≤ cov (L - T + 1) T f := by
  have hmem : min f (L - T) ∈
      (Finset.range (L - T + 1)).filter (fun w => w ≤ f ∧ f < w + T) := by
    simp only [Finset.mem_filter, Finset.mem_range]
    omega
  have := Finset.card_pos.mpr ⟨_, hmem⟩
  simpa [cov] using this

theorem sum_cov (T L : Nat) (hTL : T ≤ L) :
    ∑ f ∈ Finset.range L, cov (L - T + 1) T f = (L - T + 1) * T := by
  unfold cov
  have h1 : ∀ f, ((Finset.range (L - T + 1)).filter
      (fun w => w ≤ f ∧ f < w + T)).card
      = ∑ w ∈ Finset.range (L - T + 1), if w ≤ f ∧ f < w + T then 1 else 0 := by
    intro f; exact Finset.card_filter _ _
  calc ∑ f ∈ Finset.range L, ((Finset.range (L - T + 1)).filter
        (fun w => w ≤ f ∧ f < w + T)).card
      = ∑ f ∈ Finset.range L, ∑ w ∈ Finset.range (L - T + 1),
          if w ≤ f ∧ f < w + T then 1 else 0 := by
        exact Finset.sum_congr rfl (fun f _ => h1 f)
    _ = ∑ w ∈ Finset.range (L - T + 1), ∑ f ∈ Finset.range L,
          if w ≤ f ∧ f < w + T then 1 else 0 := Finset.sum_comm
    _ = ∑ w ∈ Finset.range (L - T + 1), T := by
        apply Finset.sum_congr rfl
        intro w hw
        simp only [Finset.mem_range] at hw
        rw [← Finset.card_filter]
        have : (Finset.range L).filter (fun f => w ≤ f ∧ f < w + T)
            = Finset.Ico w (w + T) := by
          apply Finset.ext
          intro f
          simp only [Finset.mem_filter, Finset.mem_range, Finset.mem_Ico]
          omega
        rw [this, Nat.card_Ico]
        omega
    _ = (L - T + 1) * T := by
        rw [Finset.sum_const, Finset.card_range, smul_eq_mul]

theorem list_sum_eq_sum_getD (l : List Nat) :
    l.sum = ∑ i ∈ Finset.range l.length, l.getD i 0 := by
  induction l with
  | nil => simp
  | cons a t ih =>
    rw [List.sum_cons, List.length_cons, Finset.sum_range_succ']
    simp only [List.getD_cons_succ, List.getD_cons_zero]
    rw [ih]
    omega

/-! ## The inner window loop (`for j in range(frame_error[i].shape[0])`) -/

theorem pwp_insp (last : Bool) (it : TestItem) (st : EvalState) (j : Nat) :
    (processWindowPos last it st j).inspectionCount
      = listInc st.inspectionCount (st.fIdx + j) := by
  cases last <;> simp [processWindowPos]

theorem pwp_pfe (last : Bool) (it : TestItem) (st : EvalState) (j : Nat) :
    (processWindowPos last it st j).perFrameError
      = appendAt st.perFrameError st.seqIdx (st.fIdx + j) (it.frameErr.getD j 0) := by
  cases last <;> simp [processWindowPos]

theorem pwp_anom_false (it : TestItem) (st : EvalState) (j : Nat) :
    (processWindowPos false it st j).anomScores = st.anomScores := by
  simp [processWindowPos]

theorem pwp_scalars (last : Bool) (it : TestItem) (st : EvalState) (j : Nat) :
    (processWindowPos last it st j).seqIdx = st.seqIdx ∧
    (processWindowPos last it st j).fIdx = st.fIdx ∧
    (processWindowPos last it st j).fnamesLen = st.fnamesLen ∧
    (processWindowPos last it st j).asserts = st.asserts ∧
    (processWindowPos last it st j).batchCount = st.batchCount := by
  cases last <;> simp [processWindowPos]

theorem windowFold_scalars (last : Bool) (it : TestItem) (js : List Nat) :
    ∀ st : EvalState,
    (js.foldl (processWindowPos last it) st).seqIdx = st.seqIdx ∧
    (js.foldl (processWindowPos last it) st).fIdx = st.fIdx ∧
    (js.foldl (processWindowPos last it) st).fnamesLen = st.fnamesLen ∧
    (js.foldl (processWindowPos last it) st).asserts = st.asserts ∧
    (js.foldl (processWindowPos last it) st).batchCount = st.batchCount := by
  induction js with
  | nil => intro st; simp
  | cons j js ih =>
    intro st
    have h1 := pwp_scalars last it st j
    have h2 := ih (processWindowPos last it st j)
    simp only [List.foldl_cons]
    exact ⟨h2.1.trans h1.1, h2.2.1.trans h1.2.1, h2.2.2.1.trans h1.2.2.1,
      h2.2.2.2.1.trans h1.2.2.2.1, h2.2.2.2.2.trans h1.2.2.2.2⟩

theorem windowFold_insp (last : Bool) (it : TestItem) (js : List Nat) :
    ∀ st : EvalState,
    (js.foldl (processWindowPos last it) st).inspectionCount
      = js.foldl (fun l j => listInc l (st.fIdx + j)) st.inspectionCount := by
  induction js with
  | nil => intro st; simp
  | cons j js ih =>
    intro st
    simp only [List.foldl_cons]
    rw [ih (processWindowPos last it st j), pwp_insp, (pwp_scalars last it st j).2.1]

theorem windowFold_anom_false (it : TestItem) (js : List Nat) :
    ∀ st : EvalState,
    (js.foldl (processWindowPos false it) st).anomScores = st.anomScores := by
  induction js with
  | nil => intro st; simp
  | cons j js ih =>
    intro st
    simp only [List.foldl_cons]
    rw [ih (processWindowPos false it st j), pwp_anom_false]

theorem windowFold_shape (last : Bool) (it : TestItem) (js : List Nat) :
    ∀ st : EvalState, st.seqIdx = 0 → 0 < st.perFrameError.length →
    (js.foldl (processWindowPos last it) st).perFrameError.length
        = st.perFrameError.length ∧
    ((js.foldl (processWindowPos last it) st).perFrameError.getD 0 []).length
        = (st.perFrameError.getD 0 []).length := by
  induction js with
  | nil => intro st _ _; exact ⟨rfl, rfl⟩
  | cons j js ih =>
    intro st hs hp
    simp only [List.foldl_cons]
    have hstep : (processWindowPos last it st j).perFrameError
        = appendAt st.perFrameError 0 (st.fIdx + j) (it.frameErr.getD j 0) := by
      rw [pwp_pfe, hs]
    have hs2 : (processWindowPos last it st j).seqIdx = 0 :=
      ((pwp_scalars last it st j).1).trans hs
    have hp2 : 0 < (processWindowPos last it st j).perFrameError.length := by
      rw [hstep, appendAt_length]; exact hp
    obtain ⟨ih1, ih2⟩ := ih (processWindowPos last it st j) hs2 hp2
    constructor
    · rw [ih1, hstep, appendAt_length]
    · rw [ih2, hstep, appendAt_getD_length _ _ _ _ hp]

/-! ## Iterated increments over a window -/

theorem incRange_length (c : Nat) : ∀ (T : Nat) (l : List Nat),
    ((List.range T).foldl (fun l j => listInc l (c + j)) l).length = l.length := by
  intro T
  induction T with
  | zero => intro l; simp
  | succ T ih =>
    intro l
    rw [List.range_succ, List.foldl_append]
    simp only [List.foldl_cons, List.foldl_nil]
    rw [listInc_length, ih]

theorem incRange_getD (c : Nat) : ∀ (T : Nat) (l : List Nat), c + T ≤ l.length →
    ∀ f, ((List.range T).foldl (fun l j => listInc l (c + j)) l).getD f 0
      = l.getD f 0 + (if c ≤ f ∧ f < c + T then 1 else 0) := by
  intro T
  induction T with
  | zero =>
    intro l _ f
    simp only [List.range_zero, List.foldl_nil]
    split
    · omega
    · omega
  | succ T ih =>
    intro l hl f
    rw [List.range_succ, List.foldl_append]
    simp only [List.foldl_cons, List.foldl_nil]
    have hlen : c + T < ((List.range T).foldl (fun l j => listInc l (c + j)) l).length := by
      rw [incRange_length]; omega
    rw [listInc_getD _ _ hlen, ih l (by omega) f]
    split <;> split <;> split <;> omega

/-! ## Invariants of a pass over a single sequence

For a data source that delivers, in order, the `L - T + 1` stride-1 windows
of one sequence with `L` frames (window length `T ≤ L`), the loop state
after `m` items is characterized below. -/

/-- Shape and contents of the accumulators after `k` windows of a length-`L`
sequence have been processed. -/
def ArrSpec (T L k : Nat) (st : EvalState) : Prop :=
  st.inspectionCount.length = L ∧
  (∀ f, f < L → st.inspectionCount.getD f 0 = cov k T f) ∧
  (st.perFrameError.getD 0 []).length = L

/-- When the pass is not flagged `last`, the anomaly-score array holds only
its zero-allocated entries. -/
def anomZero (last : Bool) (st : EvalState) : Prop :=
  last = false → ∀ q ∈ st.anomScores, q = 0

/-- Loop state in the middle of the (single) sequence, `k ≤ L - T` items in. -/
def MidInv (T L k : Nat) (last : Bool) (st : EvalState) : Prop :=
  st.seqIdx = 0 ∧ st.fIdx = k ∧ st.fnamesLen = L ∧ st.asserts = [] ∧
  st.perFrameError.length = 1 ∧ anomZero last st ∧
  (0 < k → ArrSpec T L k st)

/-- Loop state after the sequence transition fired on the last window. -/
def FinalInv (T L : Nat) (last : Bool) (st : EvalState) : Prop :=
  st.seqIdx = 1 ∧ st.fIdx = 0 ∧ st.asserts = [true] ∧
  st.perFrameError.length = 1 ∧ anomZero last st ∧ ArrSpec T L (L - T + 1) st

/-- Combined invariant after `m` of the `L - T + 1` windows. -/
def StInv (T L m : Nat) (last : Bool) (st : EvalState) : Prop :=
  if m ≤ L - T then MidInv T L m last st else FinalInv T L last st

theorem getD_replicate_zero (L f : Nat) :
    (List.replicate L (0 : Nat)).getD f 0 = 0 := by
  rw [List.getD_eq_getElem?_getD, List.getElem?_replicate]
  split <;> rfl

theorem all_pos_of_getD (l : List Nat) (h : ∀ f, f < l.length → 0 < l.getD f 0) :
    (l.all (fun c => decide (0 < c))) = true := by
  rw [List.all_eq_true]
  intro x hx
  obtain ⟨i, hi, hxi⟩ := List.getElem_of_mem hx
  have hp := h i hi
  rw [List.getD_eq_getElem l 0 hi, hxi] at hp
  exact decide_eq_true hp

theorem allocArrays_spec (T L k : Nat) (last : Bool) (st : EvalState)
    (hseq : st.seqIdx = 0) (hf : st.fIdx = k) (hfn : st.fnamesLen = L)
    (hpfeL : st.perFrameError.length = 1) (hanom : anomZero last st)
    (harr : 0 < k → ArrSpec T L k st) :
    (allocArrays st).seqIdx = 0 ∧ (allocArrays st).fIdx = k ∧
    (allocArrays st).fnamesLen = L ∧ (allocArrays st).asserts = st.asserts ∧
    (allocArrays st).perFrameError.length = 1 ∧
    anomZero last (allocArrays st) ∧ ArrSpec T L k (allocArrays st) := by
  unfold allocArrays
  by_cases h0 : st.fIdx = 0
  · have hk0 : k = 0 := by rw [← hf, h0]
    subst hk0
    rw [if_pos h0]
    unfold ArrSpec anomZero
    refine ⟨hseq, hf, hfn, rfl, ?_, ?_, ?_, ?_, ?_⟩
    · show (st.perFrameError.set st.seqIdx (List.replicate st.fnamesLen [])).length = 1
      rw [List.length_set]; exact hpfeL
    · intro _ q hq
      exact List.eq_of_mem_replicate hq
    · show (List.replicate st.fnamesLen (0 : Nat)).length = L
      rw [List.length_replicate]; exact hfn
    · intro f _
      show (List.replicate st.fnamesLen (0 : Nat)).getD f 0 = cov 0 T f
      rw [getD_replicate_zero, cov_zero]
    · show ((st.perFrameError.set st.seqIdx (List.replicate st.fnamesLen [])).getD 0 []).length = L
      rw [hseq, getD_set_self _ _ _ _ (by omega), List.length_replicate]
      exact hfn
  · have hk : 0 < k := by
      rcases Nat.eq_zero_or_pos k with h | h
      · exact absurd (hf.trans h) h0
      · exact h
    rw [if_neg h0]
    exact ⟨hseq, hf, hfn, rfl, hpfeL, hanom, harr hk⟩

theorem midPhase_spec (T L k : Nat) (last : Bool) (st : EvalState) (it : TestItem)
    (hTL : T ≤ L) (hk : k ≤ L - T)
    (hmid : MidInv T L k last st) (hit : it.frameErr.length = T) :
    ∀ st2, st2 = (List.range it.frameErr.length).foldl (processWindowPos last it)
        (allocArrays st) →
    st2.seqIdx = 0 ∧ st2.fIdx = k ∧ st2.fnamesLen = L ∧ st2.asserts = [] ∧
    st2.inspectionCount.length = L ∧
    (∀ f, f < L → st2.inspectionCount.getD f 0 = cov (k + 1) T f) ∧
    st2.perFrameError.length = 1 ∧
    (st2.perFrameError.getD 0 []).length = L ∧
    anomZero last st2 ∧ st2.batchCount = st.batchCount := by
  obtain ⟨hseq, hf, hfn, hasrt, hpfeL, hanom, harr⟩ := hmid
  obtain ⟨a_seq, a_f, a_fn, a_as, a_pfeL, a_anom, a_insp_len, a_insp_getD, a_pfe0⟩ :=
    allocArrays_spec T L k last st hseq hf hfn hpfeL hanom harr
  intro st2 hst2
  obtain ⟨w_seq, w_f, w_fn, w_as, w_bc⟩ :=
    windowFold_scalars last it (List.range it.frameErr.length) (allocArrays st)
  rw [← hst2] at w_seq w_f w_fn w_as w_bc
  have hkT : k + T ≤ L := by omega
  have h2insp : st2.inspectionCount
      = (List.range T).foldl (fun l j => listInc l (k + j))
          (allocArrays st).inspectionCount := by
    rw [hst2, windowFold_insp, a_f, hit]
  have halloc_bc : (allocArrays st).batchCount = st.batchCount := by
    unfold allocArrays
    split <;> rfl
  refine ⟨w_seq.trans a_seq, w_f.trans a_f, w_fn.trans a_fn,
    by rw [w_as, a_as, hasrt], ?_, ?_, ?_, ?_, ?_, w_bc.trans halloc_bc⟩
  · rw [h2insp, incRange_length, a_insp_len]
  · intro f hfL
    rw [h2insp, incRange_getD k T _ (by rw [a_insp_len]; omega) f,
      a_insp_getD f hfL, cov_succ]
  · have := windowFold_shape last it (List.range it.frameErr.length)
      (allocArrays st) a_seq (by omega)
    rw [← hst2] at this
    rw [this.1, a_pfeL]
  · have := windowFold_shape last it (List.range it.frameErr.length)
      (allocArrays st) a_seq (by omega)
    rw [← hst2] at this
    rw [this.2, a_pfe0]
  · intro hl
    subst hl
    have := windowFold_anom_false it (List.range it.frameErr.length) (allocArrays st)
    rw [← hst2] at this
    rw [this]
    exact a_anom rfl

theorem advanceCursor_spec (T L k : Nat) (last : Bool) (st2 : EvalState)
    (hT : 1 ≤ T) (hTL : T ≤ L) (hk : k ≤ L - T)
    (h2seq : st2.seqIdx = 0) (h2f : st2.fIdx = k) (h2fn : st2.fnamesLen = L)
    (h2as : st2.asserts = [])
    (h2insp_len : st2.inspectionCount.length = L)
    (h2insp_getD : ∀ f, f < L → st2.inspectionCount.getD f 0 = cov (k + 1) T f)
    (h2pfeL : st2.perFrameError.length = 1)
    (h2pfe0 : (st2.perFrameError.getD 0 []).length = L)
    (h2anom : anomZero last st2) :
    StInv T L (k + 1) last (advanceCursor T [L] last st2) := by
  unfold advanceCursor
  by_cases hcase : k < L - T
  · have hcond : st2.fIdx < st2.fnamesLen - T := by rw [h2f, h2fn]; omega
    rw [if_pos hcond]
    unfold StInv
    rw [if_pos (by omega : k + 1 ≤ L - T)]
    unfold MidInv ArrSpec anomZero
    refine ⟨h2seq, ?_, h2fn, h2as, h2pfeL, ?_, ?_⟩
    · show st2.fIdx + 1 = k + 1
      rw [h2f]
    · intro hl q hq
      exact h2anom hl q hq
    · intro _
      exact ⟨h2insp_len, h2insp_getD, h2pfe0⟩
  · have hkeq : k = L - T := by omega
    have hcond : ¬ (st2.fIdx < st2.fnamesLen - T) := by rw [h2f, h2fn]; omega
    rw [if_neg hcond]
    have hok : st2.inspectionCount.all (fun c => decide (0 < c)) = true := by
      apply all_pos_of_getD
      intro f hfl
      rw [h2insp_len] at hfl
      rw [h2insp_getD f hfl]
      have := cov_pos T L f hT hTL hfl
      rw [hkeq]
      omega
    unfold StInv
    rw [if_neg (by omega : ¬ (k + 1 ≤ L - T))]
    unfold FinalInv ArrSpec anomZero
    cases last
    · simp only [Bool.false_eq_true, if_false, h2seq, h2as, hok, List.length_singleton,
        Nat.zero_add, lt_self_iff_false, if_false, List.nil_append]
      refine ⟨by trivial, by trivial, by trivial, h2pfeL, ?_, h2insp_len, ?_, h2pfe0⟩
      · intro _ q hq
        exact h2anom rfl q hq
      · intro f hfL
        rw [h2insp_getD f hfL, hkeq]
    · simp only [if_true, h2seq, h2as, hok, List.length_singleton,
        Nat.zero_add, lt_self_iff_false, if_false, List.nil_append]
      refine ⟨by trivial, by trivial, by trivial, h2pfeL, ?_, h2insp_len, ?_, h2pfe0⟩
      · intro hl q hq
        exact absurd hl (by simp)
      · intro f hfL
        rw [h2insp_getD f hfL, hkeq]

theorem processItem_step (T L k : Nat) (last : Bool) (st : EvalState) (it : TestItem)
    (hT : 1 ≤ T) (hTL : T ≤ L) (hk : k ≤ L - T)
    (hmid : MidInv T L k last st) (hit : it.frameErr.length = T) :
    StInv T L (k + 1) last (processItem T [L] last st it) := by
  obtain ⟨h2seq, h2f, h2fn, h2as, h2il, h2ig, h2pl, h2p0, h2an, _⟩ :=
    midPhase_spec T L k last st it hTL hk hmid hit _ rfl
  exact advanceCursor_spec T L k last _ hT hTL hk h2seq h2f h2fn h2as h2il h2ig
    h2pl h2p0 h2an

theorem itemsFold_inv (T L : Nat) (last : Bool) :
    ∀ (b : List TestItem) (k : Nat) (st : EvalState),
    1 ≤ T → T ≤ L → k ≤ L - T → k + b.length ≤ L - T + 1 → 1 ≤ b.length →
    MidInv T L k last st → (∀ it ∈ b, it.frameErr.length = T) →
    StInv T L (k + b.length) last (b.foldl (processItem T [L] last) st) := by
  intro b
  induction b with
  | nil => intro k st _ _ _ _ hb _ _; exact absurd hb (by simp)
  | cons it rest ih =>
    intro k st hT hTL hk hcnt _ hmid hlens
    simp only [List.foldl_cons, List.length_cons]
    have hstep := processItem_step T L k last st it hT hTL hk hmid
      (hlens it (List.mem_cons_self it rest))
    rcases Nat.eq_zero_or_pos rest.length with hr | hr
    · have hnil : rest = [] := List.length_eq_zero.mp hr
      subst hnil
      simpa using hstep
    · have hk1 : k + 1 ≤ L - T := by
        simp only [List.length_cons] at hcnt
        omega
      have hmid1 : MidInv T L (k + 1) last (processItem T [L] last st it) := by
        unfold StInv at hstep
        rw [if_pos hk1] at hstep
        exact hstep
      have hres := ih (k + 1) (processItem T [L] last st it) hT hTL hk1
        (by simp only [List.length_cons] at hcnt; omega) hr hmid1
        (fun x hx => hlens x (List.mem_cons_of_mem it hx))
      have harith : k + (rest.length + 1) = (k + 1) + rest.length := by omega
      rw [harith]
      exact hres

/-- The state at the top of the `while True` loop, before the re-listing of
`fnames` for the incoming batch. -/
def BatchTopInv (T L k : Nat) (last : Bool) (st : EvalState) : Prop :=
  st.seqIdx = 0 ∧ st.fIdx = k ∧ st.asserts = [] ∧ st.perFrameError.length = 1 ∧
  anomZero last st ∧ (0 < k → ArrSpec T L k st)

theorem batchFold_inv (T L : Nat) (last : Bool) :
    ∀ (bs : List (List TestItem)) (k : Nat) (st : EvalState),
    1 ≤ T → T ≤ L → k ≤ L - T → k + bs.flatten.length = L - T + 1 →
    (∀ b ∈ bs, b ≠ []) → (∀ it ∈ bs.flatten, it.frameErr.length = T) →
    BatchTopInv T L k last st →
    FinalInv T L last (bs.foldl (processBatch T [L] last) st) := by
  intro bs
  induction bs with
  | nil =>
    intro k st hT hTL hk hcnt _ _ _
    simp only [List.flatten_nil, List.length_nil] at hcnt
    omega
  | cons b rest ih =>
    intro k st hT hTL hk hcnt hne hlens htop
    obtain ⟨hseq, hf, hasrt, hpfeL, hanom, harr⟩ := htop
    simp only [List.foldl_cons]
    have hpb : processBatch T [L] last st b
        = b.foldl (processItem T [L] last)
            { st with fnamesLen := ([L] : List Nat).getD st.seqIdx 0,
                      batchCount := st.batchCount + 1 } := rfl
    have hmid' : MidInv T L k last
        { st with fnamesLen := ([L] : List Nat).getD st.seqIdx 0,
                  batchCount := st.batchCount + 1 } := by
      refine ⟨hseq, hf, ?_, hasrt, hpfeL, ?_, ?_⟩
      · show ([L] : List Nat).getD st.seqIdx 0 = L
        rw [hseq]
        rfl
      · intro hl q hq
        exact hanom hl q hq
      · intro hkpos
        exact harr hkpos
    have hb_ne : 1 ≤ b.length := by
      have hb := hne b (List.mem_cons_self b rest)
      cases b with
      | nil => exact absurd rfl hb
      | cons x xs => simp
    have hcnt_b : k + b.length ≤ L - T + 1 := by
      simp only [List.flatten_cons, List.length_append] at hcnt
      omega
    have hstep := itemsFold_inv T L last b k _ hT hTL hk hcnt_b hb_ne hmid'
      (fun x hx => hlens x (by rw [List.flatten_cons]; exact List.mem_append_left _ hx))
    rw [hpb]
    rcases Nat.lt_or_ge (L - T) (k + b.length) with hgt | hle
    · have hflat : rest.flatten.length = 0 := by
        simp only [List.flatten_cons, List.length_append] at hcnt
        omega
      have hrest_nil : rest = [] := by
        cases rest with
        | nil => rfl
        | cons c cs =>
          have hcne := hne c (by simp)
          simp only [List.flatten_cons, List.length_append] at hflat
          cases c with
          | nil => exact absurd rfl hcne
          | cons y ys => simp at hflat
      subst hrest_nil
      simp only [List.foldl_nil]
      unfold StInv at hstep
      rw [if_neg (by omega)] at hstep
      exact hstep
    · have hmid2 : MidInv T L (k + b.length) last
          (b.foldl (processItem T [L] last)
            { st with fnamesLen := ([L] : List Nat).getD st.seqIdx 0,
                      batchCount := st.batchCount + 1 }) := by
        unfold StInv at hstep
        rw [if_pos hle] at hstep
        exact hstep
      obtain ⟨m_seq, m_f, m_fn, m_as, m_pfeL, m_anom, m_arr⟩ := hmid2
      exact ih (k + b.length) _ hT hTL hle
        (by simp only [List.flatten_cons, List.length_append] at hcnt; omega)
        (fun x hx => hne x (List.mem_cons_of_mem b hx))
        (fun x hx => hlens x (by rw [List.flatten_cons]; exact List.mem_append_right _ hx))
        ⟨m_seq, m_f, m_as, m_pfeL, m_anom, m_arr⟩

/-- Full characterization of a pass of the evaluation loop over a single
sequence of `L` frames whose `L - T + 1` windows arrive in order, in
nonempty batches. -/
theorem singleSeqPass (T L : Nat) (last : Bool) (bs : List (List TestItem))
    (hT : 1 ≤ T) (hTL : T ≤ L)
    (hcnt : bs.flatten.length = L - T + 1)
    (hne : ∀ b ∈ bs, b ≠ [])
    (hlens : ∀ it ∈ bs.flatten, it.frameErr.length = T) :
    FinalInv T L last (runTestPass T [L] last bs) := by
  apply batchFold_inv T L last bs 0 (initState 1) hT hTL (by omega) (by omega)
    hne hlens
  refine ⟨rfl, rfl, rfl, by simp [initState], ?_, ?_⟩
  · intro _ q hq
    simp [initState] at hq
  · intro h
    omega

/-! ## Batch consumption -/

theorem advanceCursor_batchCount (tvol : Nat) (seqLens : List Nat) (last : Bool)
    (st : EvalState) :
    (advanceCursor tvol seqLens last st).batchCount = st.batchCount := by
  unfold advanceCursor
  by_cases h1 : st.fIdx < st.fnamesLen - tvol
  · rw [if_pos h1]
  · rw [if_neg h1]
    dsimp only
    by_cases h2 : seqLens.length < st.seqIdx + 1
    · rw [if_pos h2]
      cases last <;> rfl
    · rw [if_neg h2]
      cases last <;> rfl

theorem processItem_batchCount (tvol : Nat) (seqLens : List Nat) (last : Bool)
    (st : EvalState) (it : TestItem) :
    (processItem tvol seqLens last st it).batchCount = st.batchCount := by
  unfold processItem
  rw [advanceCursor_batchCount]
  rw [(windowFold_scalars last it (List.range it.frameErr.length)
    (allocArrays st)).2.2.2.2]
  unfold allocArrays
  split <;> rfl

theorem itemsFold_batchCount (tvol : Nat) (seqLens : List Nat) (last : Bool) :
    ∀ (b : List TestItem) (st : EvalState),
    (b.foldl (processItem tvol seqLens last) st).batchCount = st.batchCount := by
  intro b
  induction b with
  | nil => intro st; rfl
  | cons it rest ih =>
    intro st
    simp only [List.foldl_cons]
    rw [ih, processItem_batchCount]

theorem batchFold_batchCount (tvol : Nat) (seqLens : List Nat) (last : Bool) :
    ∀ (bs : List (List TestItem)) (st : EvalState),
    (bs.foldl (processBatch tvol seqLens last) st).batchCount
      = st.batchCount + bs.length := by
  intro bs
  induction bs with
  | nil => intro st; rfl
  | cons b rest ih =>
    intro st
    simp only [List.foldl_cons, List.length_cons]
    rw [ih]
    have hb : (processBatch tvol seqLens last st b).batchCount
        = st.batchCount + 1 := by
      unfold processBatch
      rw [itemsFold_batchCount]
    rw [hb]
    omega

theorem runBatchesE_count (tvol : Nat) (seqLens : List Nat) (last : Bool) :
    ∀ (bs : List (List TestItem)) (st st2 : EvalState),
    runBatchesE tvol seqLens last st bs = Except.ok st2 →
    st2.batchCount = st.batchCount + bs.length := by
  intro bs
  induction bs with
  | nil =>
    intro st st2 h
    unfold runBatchesE at h
    simp only [Except.ok.injEq] at h
    rw [← h, List.length_nil]
    omega
  | cons b rest ih =>
    intro st st2 h
    unfold runBatchesE at h
    by_cases hg : seqLens.length ≤ st.seqIdx
    · rw [if_pos hg] at h
      simp at h
    · rw [if_neg hg] at h
      have hrec := ih (processBatch tvol seqLens last st b) st2 h
      have hpb : (processBatch tvol seqLens last st b).batchCount
          = st.batchCount + 1 := by
        unfold processBatch
        rw [itemsFold_batchCount]
      rw [hrec, hpb, List.length_cons]
      omega

theorem runBatchesE_ok (T L : Nat) (last : Bool) :
    ∀ (bs : List (List TestItem)) (k : Nat) (st : EvalState),
    1 ≤ T → T ≤ L → k ≤ L - T → k + bs.flatten.length ≤ L - T + 1 →
    (∀ b ∈ bs, b ≠ []) → (∀ it ∈ bs.flatten, it.frameErr.length = T) →
    BatchTopInv T L k last st →
    runBatchesE T [L] last st bs
      = Except.ok (bs.foldl (processBatch T [L] last) st) := by
  intro bs
  induction bs with
  | nil => intro k st _ _ _ _ _ _ _; rfl
  | cons b rest ih =>
    intro k st hT hTL hk hcnt hne hlens htop
    obtain ⟨hseq, hf, hasrt, hpfeL, hanom, harr⟩ := htop
    have hguard : ¬ (([L] : List Nat).length ≤ st.seqIdx) := by
      rw [hseq]
      simp
    show (if ([L] : List Nat).length ≤ st.seqIdx then Except.error "IndexError"
        else runBatchesE T [L] last (processBatch T [L] last st b) rest)
      = Except.ok ((b :: rest).foldl (processBatch T [L] last) st)
    rw [if_neg hguard]
    simp only [List.foldl_cons]
    cases rest with
    | nil => rfl
    | cons c cs =>
      have hmid' : MidInv T L k last
          { st with fnamesLen := ([L] : List Nat).getD st.seqIdx 0,
                    batchCount := st.batchCount + 1 } := by
        refine ⟨hseq, hf, ?_, hasrt, hpfeL, ?_, ?_⟩
        · show ([L] : List Nat).getD st.seqIdx 0 = L
          rw [hseq]
          rfl
        · intro hl q hq
          exact hanom hl q hq
        · intro hkpos
          exact harr hkpos
      have hb_ne : 1 ≤ b.length := by
        have hb := hne b (List.mem_cons_self b (c :: cs))
        cases b with
        | nil => exact absurd rfl hb
        | cons x xs => simp
      have hcflat : 1 ≤ (c :: cs).flatten.length := by
        have hcne := hne c (by simp)
        cases c with
        | nil => exact absurd rfl hcne
        | cons y ys => simp [List.flatten_cons]
      have hcnt_b : k + b.length ≤ L - T + 1 := by
        simp only [List.flatten_cons, List.length_append] at hcnt
        omega
      have hle : k + b.length ≤ L - T := by
        simp only [List.flatten_cons, List.length_append] at hcnt
        simp only [List.flatten_cons, List.length_append] at hcflat
        omega
      have hstep := itemsFold_inv T L last b k _ hT hTL hk hcnt_b hb_ne hmid'
        (fun x hx => hlens x
          (by rw [List.flatten_cons]; exact List.mem_append_left _ hx))
      have hmid2 : MidInv T L (k + b.length) last
          (b.foldl (processItem T [L] last)
            { st with fnamesLen := ([L] : List Nat).getD st.seqIdx 0,
                      batchCount := st.batchCount + 1 }) := by
        unfold StInv at hstep
        rw [if_pos hle] at hstep
        exact hstep
      obtain ⟨m_seq, m_f, m_fn, m_as, m_pfeL, m_anom, m_arr⟩ := hmid2
      exact ih (k + b.length) _ hT hTL hle
        (by simp only [List.flatten_cons, List.length_append] at hcnt ⊢; omega)
        (fun x hx => hne x (List.mem_cons_of_mem b hx))
        (fun x hx => hlens x
          (by rw [List.flatten_cons]; exact List.mem_append_right _ hx))
        ⟨m_seq, m_f, m_as, m_pfeL, m_anom, m_arr⟩

/-! ## Minimum and maximum of an error vector -/

theorem foldl_min_le (t : List ℚ) : ∀ a : ℚ,
    t.foldl min a ≤ a ∧ ∀ x ∈ t, t.foldl min a ≤ x := by
  induction t with
  | nil =>
    intro a
    refine ⟨le_refl a, ?_⟩
    intro x hx
    cases hx
  | cons b t ih =>
    intro a
    simp only [List.foldl_cons]
    constructor
    · exact le_trans (ih (min a b)).1 (min_le_left a b)
    · intro x hx
      rcases List.mem_cons.mp hx with h | h
      · subst h
        exact le_trans (ih (min a x)).1 (min_le_right a x)
      · exact (ih (min a b)).2 x h

theorem foldl_max_le (t : List ℚ) : ∀ a : ℚ,
    a ≤ t.foldl max a ∧ ∀ x ∈ t, x ≤ t.foldl max a := by
  induction t with
  | nil =>
    intro a
    refine ⟨le_refl a, ?_⟩
    intro x hx
    cases hx
  | cons b t ih =>
    intro a
    simp only [List.foldl_cons]
    constructor
    · exact le_trans (le_max_left a b) (ih (max a b)).1
    · intro x hx
      rcases List.mem_cons.mp hx with h | h
      · subst h
        exact le_trans (le_max_right a x) (ih (max a x)).1
      · exact (ih (max a b)).2 x h

theorem foldl_min_mem (t : List ℚ) : ∀ a : ℚ,
    t.foldl min a = a ∨ t.foldl min a ∈ t := by
  induction t with
  | nil => intro a; exact Or.inl rfl
  | cons b t ih =>
    intro a
    simp only [List.foldl_cons]
    rcases ih (min a b) with h | h
    · rcases le_total a b with hab | hba
      · exact Or.inl (h.trans (min_eq_left hab))
      · refine Or.inr ?_
        rw [h.trans (min_eq_right hba)]
        exact List.mem_cons_self b t
    · exact Or.inr (List.mem_cons_of_mem b h)

theorem foldl_max_mem (t : List ℚ) : ∀ a : ℚ,
    t.foldl max a = a ∨ t.foldl max a ∈ t := by
  induction t with
  | nil => intro a; exact Or.inl rfl
  | cons b t ih =>
    intro a
    simp only [List.foldl_cons]
    rcases ih (max a b) with h | h
    · rcases le_total a b with hab | hba
      · refine Or.inr ?_
        rw [h.trans (max_eq_right hab)]
        exact List.mem_cons_self b t
      · exact Or.inl (h.trans (max_eq_left hba))
    · exact Or.inr (List.mem_cons_of_mem b h)

theorem npMin_le (v : List ℚ) (x : ℚ) (hx : x ∈ v) : npMin v ≤ x := by
  cases v with
  | nil => cases hx
  | cons a t =>
    unfold npMin
    rcases List.mem_cons.mp hx with h | h
    · subst h
      exact (foldl_min_le t x).1
    · exact (foldl_min_le t a).2 x h

theorem le_npMax (v : List ℚ) (x : ℚ) (hx : x ∈ v) : x ≤ npMax v := by
  cases v with
  | nil => cases hx
  | cons a t =>
    unfold npMax
    rcases List.mem_cons.mp hx with h | h
    · subst h
      exact (foldl_max_le t x).1
    · exact (foldl_max_le t a).2 x h

theorem npMin_mem (v : List ℚ) (hv : v ≠ []) : npMin v ∈ v := by
  cases v with
  | nil => exact absurd rfl hv
  | cons a t =>
    show List.foldl min a t ∈ a :: t
    rcases foldl_min_mem t a with h | h
    · rw [h]
      exact List.mem_cons_self a t
    · exact List.mem_cons_of_mem a h

theorem npMax_mem (v : List ℚ) (hv : v ≠ []) : npMax v ∈ v := by
  cases v with
  | nil => exact absurd rfl hv
  | cons a t =>
    show List.foldl max a t ∈ a :: t
    rcases foldl_max_mem t a with h | h
    · rw [h]
      exact List.mem_cons_self a t
    · exact List.mem_cons_of_mem a h

theorem foldl_min_map (f : ℚ → ℚ) (hf : Monotone f) (xs : List ℚ) : ∀ a : ℚ,
    (xs.map f).foldl min (f a) = f (xs.foldl min a) := by
  induction xs with
  | nil => intro a; rfl
  | cons y ys ih =>
    intro a
    simp only [List.map_cons, List.foldl_cons]
    rw [← hf.map_min, ih (min a y)]

theorem foldl_max_map (f : ℚ → ℚ) (hf : Monotone f) (xs : List ℚ) : ∀ a : ℚ,
    (xs.map f).foldl max (f a) = f (xs.foldl max a) := by
  induction xs with
  | nil => intro a; rfl
  | cons y ys ih =>
    intro a
    simp only [List.map_cons, List.foldl_cons]
    rw [← hf.map_max, ih (max a y)]

theorem npMin_map (f : ℚ → ℚ) (hf : Monotone f) (v : List ℚ) (hv : v ≠ []) :
    npMin (v.map f) = f (npMin v) := by
  cases v with
  | nil => exact absurd rfl hv
  | cons a t =>
    unfold npMin
    simp only [List.map_cons]
    exact foldl_min_map f hf t a

theorem npMax_map (f : ℚ → ℚ) (hf : Monotone f) (v : List ℚ) (hv : v ≠ []) :
    npMax (v.map f) = f (npMax v) := by
  cases v with
  | nil => exact absurd rfl hv
  | cons a t =>
    unfold npMax
    simp only [List.map_cons]
    exact foldl_max_map f hf t a

/-- A failed `assert` raises `AssertionError`, which nothing in `test`
catches: the run aborts.  A completed pass is `.ok` exactly when every
recorded boundary assertion held. -/
def runTestPassChecked (tvol : Nat) (seqLens : List Nat) (last : Bool)
    (batches : List (List TestItem)) : Except String EvalState :=
  let st := runTestPass tvol seqLens last batches
  if st.asserts.all id then Except.ok st else Except.error "AssertionError"

/-! ## The training loop -/

theorem trainStep_trainSteps (p : Nat) (lossF aucF vlossF : Nat → ℚ)
    (st : TrainState) (i : Nat) :
    (trainStep p lossF aucF vlossF st i).trainSteps = st.trainSteps + 1 := by
  unfold trainStep
  dsimp only
  split
  · split <;> rfl
  · rfl

theorem trainStep_pixel (p : Nat) (lossF aucF vlossF : Nat → ℚ)
    (st : TrainState) (i : Nat) :
    (trainStep p lossF aucF vlossF st i).pixel_aucs = st.pixel_aucs := by
  unfold trainStep
  dsimp only
  split
  · split <;> rfl
  · rfl

theorem trainStep_best_mono (p : Nat) (lossF aucF vlossF : Nat → ℚ)
    (st : TrainState) (i : Nat) :
    st.best_auc ≤ (trainStep p lossF aucF vlossF st i).best_auc := by
  unfold trainStep
  dsimp only
  split
  · split
    · rename_i h2
      exact le_of_lt h2
    · exact le_refl _
  · exact le_refl _

theorem trainStep_saves (p : Nat) (lossF aucF vlossF : Nat → ℚ)
    (st : TrainState) (i : Nat) :
    (trainStep p lossF aucF vlossF st i).saves
      = if i % p = 0 ∧ st.best_auc < aucF i then st.saves ++ [i] else st.saves := by
  unfold trainStep
  dsimp only
  by_cases h1 : i % p = 0
  · rw [if_pos h1]
    by_cases h2 : st.best_auc < aucF i
    · rw [if_pos h2, if_pos ⟨h1, h2⟩]
    · rw [if_neg h2, if_neg (by intro hc; exact h2 hc.2)]
  · rw [if_neg h1, if_neg (by intro hc; exact h1 hc.1)]

theorem trainStep_evalSteps (p : Nat) (lossF aucF vlossF : Nat → ℚ)
    (st : TrainState) (i : Nat) :
    (trainStep p lossF aucF vlossF st i).evalSteps
      = st.evalSteps ++ (if i % p = 0 then [i] else []) := by
  unfold trainStep
  dsimp only
  by_cases h1 : i % p = 0
  · rw [if_pos h1, if_pos h1]
    by_cases h2 : st.best_auc < aucF i
    · rw [if_pos h2]
    · rw [if_neg h2]
  · rw [if_neg h1, if_neg h1]
    rw [List.append_nil]

theorem trainFold_spec (p : Nat) (lossF aucF vlossF : Nat → ℚ) :
    ∀ (l : List Nat) (st : TrainState),
    ((l.foldl (trainStep p lossF aucF vlossF) st).trainSteps
        = st.trainSteps + l.length) ∧
    ((l.foldl (trainStep p lossF aucF vlossF) st).evalSteps
        = st.evalSteps ++ l.filter (fun i => decide (i % p = 0))) ∧
    ((l.foldl (trainStep p lossF aucF vlossF) st).pixel_aucs = st.pixel_aucs) ∧
    (st.best_auc ≤ (l.foldl (trainStep p lossF aucF vlossF) st).best_auc) := by
  intro l
  induction l with
  | nil =>
    intro st
    refine ⟨rfl, ?_, rfl, le_refl _⟩
    simp
  | cons i rest ih =>
    intro st
    simp only [List.foldl_cons, List.length_cons]
    obtain ⟨ih1, ih2, ih3, ih4⟩ := ih (trainStep p lossF aucF vlossF st i)
    refine ⟨?_, ?_, ?_, ?_⟩
    · rw [ih1, trainStep_trainSteps]
      omega
    · rw [ih2, trainStep_evalSteps, List.filter_cons]
      by_cases h1 : i % p = 0
      · rw [if_pos h1, if_pos (by simpa using h1)]
        rw [List.append_assoc]
        rfl
      · rw [if_neg h1, if_neg (by simpa using h1)]
        rw [List.append_nil]
    · rw [ih3, trainStep_pixel]
    · exact le_trans (trainStep_best_mono p lossF aucF vlossF st i) ih4

theorem trainRun_succ (n p : Nat) (lossF aucF vlossF : Nat → ℚ) :
    trainRun (n + 1) p lossF aucF vlossF
      = trainStep p lossF aucF vlossF (trainRun n p lossF aucF vlossF) (n + 1) := by
  unfold trainRun
  rw [List.range_succ, List.foldl_append]
  rfl

/-! ## The claims -/

/-- A stride-1 window item with three all-zero rows, window length 3. -/
def constWindow3 : TestItem := ⟨[0, 0, 0], [0, 0, 0], [0, 0, 0]⟩

/-- A stride-1 window item with three all-zero rows, window length 2. -/
def constWindow2 : TestItem := ⟨[0, 0], [0, 0], [0, 0]⟩

/-- C1: for every test sequence of length `L` processed by the evaluator
with window length `T ≤ L` (its `L - T + 1` windows supplied in order, in
nonempty batches), the pass produces exactly `L` per-frame accumulator
slots, each frame's inspection count lies between `1` and `T` inclusive,
and the inspection counts sum to `(L - T + 1) * T`. -/
theorem c1_evaluator_coverage (T L : Nat) (last : Bool)
    (bs : List (List TestItem))
    (hT : 1 ≤ T) (hTL : T ≤ L)
    (hcnt : bs.flatten.length = L - T + 1)
    (hne : ∀ b ∈ bs, b ≠ [])
    (hlens : ∀ it ∈ bs.flatten, it.frameErr.length = T) :
    ((runTestPass T [L] last bs).perFrameError.getD 0 []).length = L ∧
    (runTestPass T [L] last bs).inspectionCount.length = L ∧
    (∀ f, f < L → 1 ≤ (runTestPass T [L] last bs).inspectionCount.getD f 0 ∧
      (runTestPass T [L] last bs).inspectionCount.getD f 0 ≤ T) ∧
    (runTestPass T [L] last bs).inspectionCount.sum = (L - T + 1) * T := by
  obtain ⟨_, _, _, _, _, hil, hig, hip⟩ :=
    singleSeqPass T L last bs hT hTL hcnt hne hlens
  refine ⟨hip, hil, ?_, ?_⟩
  · intro f hf
    rw [hig f hf]
    exact ⟨cov_pos T L f hT hTL hf, cov_le (L - T + 1) T f⟩
  · rw [list_sum_eq_sum_getD, hil]
    rw [Finset.sum_congr rfl
      (fun f hf => hig f (Finset.mem_range.mp hf))]
    exact sum_cov T L hTL

/-- Witness for C1: a sequence of 3 frames, window length 2, both windows in
one batch. -/
theorem c1_witness :
    ((runTestPass 2 [3] false [[constWindow2, constWindow2]]).perFrameError.getD 0 []).length = 3 ∧
    (runTestPass 2 [3] false [[constWindow2, constWindow2]]).inspectionCount.length = 3 ∧
    (∀ f, f < 3 → 1 ≤ (runTestPass 2 [3] false [[constWindow2, constWindow2]]).inspectionCount.getD f 0 ∧
      (runTestPass 2 [3] false [[constWindow2, constWindow2]]).inspectionCount.getD f 0 ≤ 2) ∧
    (runTestPass 2 [3] false [[constWindow2, constWindow2]]).inspectionCount.sum = (3 - 2 + 1) * 2 :=
  c1_evaluator_coverage 2 3 false [[constWindow2, constWindow2]]
    (by decide) (by decide) (by decide) (by decide) (by decide)

/-- C2: after a full pass over a sequence (all `L - T + 1` windows supplied,
`T ≤ L`), every frame index has inspection count strictly greater than zero,
the boundary assertion `np.all(0 < inspection_count)` evaluates true, and
the checked run completes with `.ok` (an `AssertionError` would abort the
run, and nothing catches it). -/
theorem c2_assertion_never_fails (T L : Nat) (last : Bool)
    (bs : List (List TestItem))
    (hT : 1 ≤ T) (hTL : T ≤ L)
    (hcnt : bs.flatten.length = L - T + 1)
    (hne : ∀ b ∈ bs, b ≠ [])
    (hlens : ∀ it ∈ bs.flatten, it.frameErr.length = T) :
    (∀ f, f < L → 0 < (runTestPass T [L] last bs).inspectionCount.getD f 0) ∧
    (runTestPass T [L] last bs).asserts = [true] ∧
    runTestPassChecked T [L] last bs = Except.ok (runTestPass T [L] last bs) := by
  obtain ⟨_, _, has, _, _, _, hig, _⟩ :=
    singleSeqPass T L last bs hT hTL hcnt hne hlens
  refine ⟨?_, has, ?_⟩
  · intro f hf
    rw [hig f hf]
    exact cov_pos T L f hT hTL hf
  · unfold runTestPassChecked
    dsimp only
    rw [has]
    rfl

/-- Witness for C2: a sequence of 3 frames, window length 3, one window. -/
theorem c2_witness :
    (∀ f, f < 3 → 0 < (runTestPass 3 [3] false [[constWindow3]]).inspectionCount.getD f 0) ∧
    (runTestPass 3 [3] false [[constWindow3]]).asserts = [true] ∧
    runTestPassChecked 3 [3] false [[constWindow3]]
      = Except.ok (runTestPass 3 [3] false [[constWindow3]]) :=
  c2_assertion_never_fails 3 3 false [[constWindow3]]
    (by decide) (by decide) (by decide) (by decide) (by decide)

/-- C3: evaluation of the loop on a batch that straddles the boundary
between a length-3 and a length-4 sequence with `T = 3`.  `fnames` is
re-listed only at the top of a batch (the mid-batch refresh guard
`len(dirs) < seq_idx` is inverted and never fires), so the second item is
recorded against sequence 1 with an accumulator of the stale length 3
instead of 4, and the cursor, comparing against the stale length, skips
straight to sequence index 2. -/
theorem c3_straddling_batch_eval :
    ((runTestPass 3 [3, 4] false [[constWindow3, constWindow3]]).perFrameError.getD 1 []).length = 3 ∧
    (runTestPass 3 [3, 4] false [[constWindow3, constWindow3]]).seqIdx = 2 ∧
    (3 : Nat) ≠ 4 := by decide

/-- Counterexample for C4: a data source that yields exactly 2 batches and
then the end marker — the straddling batch of C3 over sequences of lengths
3 and 4, followed by one more batch — does not make the loop terminate
normally after consuming 2 batches: the straddle leaves `seq_idx = 2` with
only two test directories, so the batch-top re-listing `dirs[seq_idx]`
(`src/train.py`, line 59) raises an uncaught `IndexError` and the run
aborts. -/
theorem c4_counterexample :
    runTestPassE 3 [3, 4] false
        [[constWindow3, constWindow3], [constWindow3]]
      = Except.error "IndexError" := by
  rfl

/-- C4 (amended): termination of the evaluation loop is driven solely by
the data source's end marker — whenever the loop completes normally it has
consumed exactly the `N` batches yielded before the marker
(`num_iteration` is not a parameter of `test` at all) — and a source
delivering a full in-order pass over one sequence (`T ≤ L`, all
`L - T + 1` windows, nonempty batches) does complete normally after its
`N` batches; but normal termination is not guaranteed for every `N`-batch
source: one whose batches straddle sequences of different lengths can
drive `seq_idx` past the directory list and abort with `IndexError` at
line 59 (see C3). -/
theorem c4_exhaustion_amended (tvol T L : Nat) (seqLens : List Nat)
    (last last2 : Bool) (bs bs2 : List (List TestItem)) (st2 : EvalState)
    (hT : 1 ≤ T) (hTL : T ≤ L)
    (hcnt : bs.flatten.length = L - T + 1)
    (hne : ∀ b ∈ bs, b ≠ [])
    (hlens : ∀ it ∈ bs.flatten, it.frameErr.length = T)
    (hok : runTestPassE tvol seqLens last2 bs2 = Except.ok st2) :
    runTestPassE T [L] last bs = Except.ok (runTestPass T [L] last bs) ∧
    (runTestPass T [L] last bs).batchCount = bs.length ∧
    st2.batchCount = bs2.length := by
  refine ⟨?_, ?_, ?_⟩
  · apply runBatchesE_ok T L last bs 0 (initState 1) hT hTL (by omega)
      (by omega) hne hlens
    refine ⟨rfl, rfl, rfl, by simp [initState], ?_, ?_⟩
    · intro _ q hq
      simp [initState] at hq
    · intro hcon
      omega
  · unfold runTestPass
    rw [batchFold_batchCount]
    show 0 + bs.length = bs.length
    omega
  · have hc := runBatchesE_count tvol seqLens last2 bs2
      (initState seqLens.length) st2 hok
    rw [hc]
    show 0 + bs2.length = bs2.length
    omega

/-- Witness for C4 (amended): a one-window pass over a 3-frame sequence,
used both as the well-formed pass and as the normally-completing run. -/
theorem c4_witness :
    runTestPassE 3 [3] false [[constWindow3]]
        = Except.ok (runTestPass 3 [3] false [[constWindow3]]) ∧
    (runTestPass 3 [3] false [[constWindow3]]).batchCount = 1 ∧
    (runTestPass 3 [3] false [[constWindow3]]).batchCount = 1 :=
  c4_exhaustion_amended 3 3 3 [3] false false [[constWindow3]]
    [[constWindow3]] (runTestPass 3 [3] false [[constWindow3]])
    (by decide) (by decide) (by decide) (by decide) (by decide) (by rfl)

/-- C5: per-video normalization rescales each sequence by its own minimum
and maximum via `(x - min) / (max - min)`, and on a vector with two distinct
values the normalized vector is finite with minimum exactly 0 and maximum
exactly 1. -/
theorem c5_per_video_normalize (pfe : List (List ℚ)) (i : Nat) (a b : ℚ)
    (ha : a ∈ pfe.getD i []) (hb : b ∈ pfe.getD i []) (hab : a ≠ b) :
    (per_video_normalize pfe).getD i []
      = (pfe.getD i []).map (fun x =>
          some ((x - npMin (pfe.getD i [])) / (npMax (pfe.getD i []) - npMin (pfe.getD i [])))) ∧
    npMin ((pfe.getD i []).map (fun x =>
        (x - npMin (pfe.getD i [])) / (npMax (pfe.getD i []) - npMin (pfe.getD i [])))) = 0 ∧
    npMax ((pfe.getD i []).map (fun x =>
        (x - npMin (pfe.getD i [])) / (npMax (pfe.getD i []) - npMin (pfe.getD i [])))) = 1 := by
  have hvne : pfe.getD i [] ≠ [] := by
    intro h
    rw [h] at ha
    cases ha
  have hlt : npMin (pfe.getD i []) < npMax (pfe.getD i []) := by
    rcases Ne.lt_or_lt hab with h | h
    · exact lt_of_le_of_lt (npMin_le _ a ha) (lt_of_lt_of_le h (le_npMax _ b hb))
    · exact lt_of_le_of_lt (npMin_le _ b hb) (lt_of_lt_of_le h (le_npMax _ a ha))
  have hd : npMax (pfe.getD i []) - npMin (pfe.getD i []) ≠ 0 :=
    ne_of_gt (sub_pos.mpr hlt)
  have hmono : Monotone (fun x : ℚ =>
      (x - npMin (pfe.getD i [])) / (npMax (pfe.getD i []) - npMin (pfe.getD i []))) := by
    intro x y hxy
    exact div_le_div_of_nonneg_right (sub_le_sub_right hxy _)
      (le_of_lt (sub_pos.mpr hlt))
  refine ⟨?_, ?_, ?_⟩
  · show (List.map (fun v => v.map (fun x => nanDiv (x - npMin v) (npMax v - npMin v))) pfe).getD i
        ((fun v => v.map (fun x => nanDiv (x - npMin v) (npMax v - npMin v))) [])
      = (pfe.getD i []).map (fun x =>
          some ((x - npMin (pfe.getD i [])) / (npMax (pfe.getD i []) - npMin (pfe.getD i []))))
    rw [List.getD_map]
    apply List.map_congr_left
    intro x _
    show nanDiv (x - npMin (pfe.getD i [])) (npMax (pfe.getD i []) - npMin (pfe.getD i []))
      = some ((x - npMin (pfe.getD i [])) / (npMax (pfe.getD i []) - npMin (pfe.getD i [])))
    unfold nanDiv
    rw [if_neg hd]
  · rw [npMin_map _ hmono _ hvne]
    simp only [sub_self, zero_div]
  · rw [npMax_map _ hmono _ hvne]
    exact div_self hd

/-- Witness for C5: the error vector `[1, 3]` normalizes to a finite vector
with minimum 0 and maximum 1. -/
theorem c5_witness :
    npMin (([1, 3] : List ℚ).map (fun x =>
        (x - npMin ([([1, 3] : List ℚ)].getD 0 [])) /
          (npMax ([([1, 3] : List ℚ)].getD 0 []) - npMin ([([1, 3] : List ℚ)].getD 0 [])))) = 0 ∧
    npMax (([1, 3] : List ℚ).map (fun x =>
        (x - npMin ([([1, 3] : List ℚ)].getD 0 [])) /
          (npMax ([([1, 3] : List ℚ)].getD 0 []) - npMin ([([1, 3] : List ℚ)].getD 0 [])))) = 1 :=
  ⟨(c5_per_video_normalize [[1, 3]] 0 1 3 (by decide) (by decide) (by decide)).2.1,
   (c5_per_video_normalize [[1, 3]] 0 1 3 (by decide) (by decide) (by decide)).2.2⟩

/-- Counterexample for C6: normalizing the constant sequence `[5, 5]`
returns a value — a vector whose every entry is the non-finite result of
the unguarded division by zero — rather than raising any fatal, flagged
error at the normalization site. -/
theorem c6_counterexample : per_video_normalize [[5, 5]] = [[none, none]] := by
  norm_num [per_video_normalize, nanDiv, npMin, npMax]

/-- C6 (amended): for a sequence whose error vector is constant, the
division by zero in `per_video_normalize` is not guarded: every normalized
entry is the non-finite result of dividing by `max - min = 0` (NumPy emits
only a runtime warning), and the function returns normally. -/
theorem c6_amended (pfe : List (List ℚ)) (i : Nat) (c : ℚ)
    (hne : pfe.getD i [] ≠ [])
    (hconst : ∀ x ∈ pfe.getD i [], x = c) :
    ∀ o ∈ (per_video_normalize pfe).getD i [], o = none := by
  have hmin : npMin (pfe.getD i []) = c := hconst _ (npMin_mem _ hne)
  have hmax : npMax (pfe.getD i []) = c := hconst _ (npMax_mem _ hne)
  have hd : npMax (pfe.getD i []) - npMin (pfe.getD i []) = 0 := by
    rw [hmin, hmax, sub_self]
  intro o ho
  have hget : (per_video_normalize pfe).getD i []
      = (pfe.getD i []).map (fun x =>
          nanDiv (x - npMin (pfe.getD i [])) (npMax (pfe.getD i []) - npMin (pfe.getD i []))) := by
    show (List.map (fun v => v.map (fun x => nanDiv (x - npMin v) (npMax v - npMin v))) pfe).getD i
        ((fun v => v.map (fun x => nanDiv (x - npMin v) (npMax v - npMin v))) [])
      = (pfe.getD i []).map (fun x =>
          nanDiv (x - npMin (pfe.getD i [])) (npMax (pfe.getD i []) - npMin (pfe.getD i [])))
    rw [List.getD_map]
  rw [hget] at ho
  obtain ⟨x, _, hx⟩ := List.mem_map.mp ho
  rw [← hx]
  show nanDiv (x - npMin (pfe.getD i [])) (npMax (pfe.getD i []) - npMin (pfe.getD i [])) = none
  unfold nanDiv
  rw [if_pos hd]

/-- Witness for C6 (amended): the first normalized entry of the constant
vector `[5, 5]` is the non-finite division-by-zero result. -/
theorem c6_witness :
    ((per_video_normalize [[5, 5]]).getD 0 []).getD 0 none = none :=
  c6_amended [[5, 5]] 0 5 (by decide) (by decide) _
    (getD_mem_of_lt _ 0 none (by decide))

/-- The AUC sequence `[0.5, 0.7, 0.6, 0.9]` of the simulated training run. -/
def demoAucSeq : Nat → ℚ := fun i => [mkRat 1 2, mkRat 7 10, mkRat 3 5, mkRat 9 10].getD i 0

/-- C7: a checkpoint is saved at an iteration exactly when it is an
evaluation iteration whose frame AUC strictly exceeds `best_auc`; `best_auc`
never decreases, neither across one iteration nor across longer runs; and on
the simulated AUC sequence `[0.5, 0.7, 0.6, 0.9]` (evaluating every
iteration) saves happen exactly at the first, second and fourth evaluations. -/
theorem c7_best_checkpoint (n m p : Nat) (lossF aucF vlossF : Nat → ℚ)
    (st : TrainState) (i : Nat) (hnm : n ≤ m) :
    ((trainStep p lossF aucF vlossF st i).saves
        = if i % p = 0 ∧ st.best_auc < aucF i then st.saves ++ [i] else st.saves) ∧
    st.best_auc ≤ (trainStep p lossF aucF vlossF st i).best_auc ∧
    (trainRun n p lossF aucF vlossF).best_auc
        ≤ (trainRun m p lossF aucF vlossF).best_auc ∧
    (trainRun 3 1 (fun _ => 0) demoAucSeq (fun _ => 0)).saves = [0, 1, 3] := by
  refine ⟨trainStep_saves p lossF aucF vlossF st i,
    trainStep_best_mono p lossF aucF vlossF st i, ?_, by decide⟩
  induction m, hnm using Nat.le_induction with
  | base => exact le_refl _
  | succ m hm ih =>
    rw [trainRun_succ]
    exact le_trans ih (trainStep_best_mono p lossF aucF vlossF _ (m + 1))

/-- Witness for C7: the simulated run itself. -/
theorem c7_witness :
    (trainRun 3 1 (fun _ => 0) demoAucSeq (fun _ => 0)).saves = [0, 1, 3] :=
  (c7_best_checkpoint 0 1 2 (fun _ => 0) (fun _ => 0) (fun _ => 0) trainInit 0
    (by decide)).2.2.2

/-- C8: for `print_every > 0` the trainer executes exactly
`num_iteration + 1` training steps, and runs an in-loop evaluation pass at
exactly the iteration indices that are multiples of `print_every`,
including step 0. -/
theorem c8_trainer_schedule (n p : Nat) (hp : 0 < p)
    (lossF aucF vlossF : Nat → ℚ) :
    (trainRun n p lossF aucF vlossF).trainSteps = n + 1 ∧
    (trainRun n p lossF aucF vlossF).evalSteps
      = (List.range (n + 1)).filter (fun i => decide (i % p = 0)) := by
  obtain ⟨h1, h2, _, _⟩ :=
    trainFold_spec p lossF aucF vlossF (List.range (n + 1)) trainInit
  constructor
  · unfold trainRun
    rw [h1]
    show 0 + (List.range (n + 1)).length = n + 1
    rw [List.length_range]
    omega
  · unfold trainRun
    rw [h2]
    rfl

/-- Witness for C8: `num_iteration = 4`, `print_every = 2` gives 5 training
steps with evaluations at steps 0, 2 and 4. -/
theorem c8_witness :
    (trainRun 4 2 (fun _ => 0) (fun _ => 0) (fun _ => 0)).trainSteps = 5 ∧
    (trainRun 4 2 (fun _ => 0) (fun _ => 0) (fun _ => 0)).evalSteps = [0, 2, 4] := by
  have h := c8_trainer_schedule 4 2 (by decide) (fun _ => 0) (fun _ => 0) (fun _ => 0)
  exact ⟨h.1, h.2.trans (by decide)⟩

/-- Counterexample for C9: with `last = false`, one window of a 3-frame
sequence still leaves inspection counts `[1, 1, 1]` — the array was
allocated and incremented although the pass is not flagged as last (only
the `anom_scores` accumulation is guarded by `last`, so that array stays at
its zero allocation). -/
theorem c9_counterexample :
    (runTestPass 3 [3] false [[constWindow3]]).inspectionCount ≠ List.replicate 3 0 ∧
    (runTestPass 3 [3] false [[constWindow3]]).inspectionCount = [1, 1, 1] ∧
    (runTestPass 3 [3] false [[constWindow3]]).anomScores = List.replicate 3 0 := by
  decide

/-- C9 (amended): the per-pixel anomaly-score array and the inspection-count
array are allocated, and the inspection counter incremented, on every pass
regardless of `last` — the inspection counts of a full pass are identical
for `last = true` and `last = false`; only the squared-residual accumulation
into `anom_scores` is guarded by `last`, so when `last` is false that array
keeps only its zero-allocated entries. -/
theorem c9_amended (T L : Nat) (bs : List (List TestItem))
    (hT : 1 ≤ T) (hTL : T ≤ L)
    (hcnt : bs.flatten.length = L - T + 1)
    (hne : ∀ b ∈ bs, b ≠ [])
    (hlens : ∀ it ∈ bs.flatten, it.frameErr.length = T) :
    (runTestPass T [L] false bs).inspectionCount
        = (runTestPass T [L] true bs).inspectionCount ∧
    (∀ q ∈ (runTestPass T [L] false bs).anomScores, q = 0) := by
  obtain ⟨_, _, _, _, haz, hil, hig, _⟩ :=
    singleSeqPass T L false bs hT hTL hcnt hne hlens
  obtain ⟨_, _, _, _, _, hil2, hig2, _⟩ :=
    singleSeqPass T L true bs hT hTL hcnt hne hlens
  constructor
  · apply List.ext_getElem (hil.trans hil2.symm)
    intro f h1 h2
    have hfL : f < L := by rw [hil] at h1; exact h1
    rw [← List.getD_eq_getElem _ 0 h1, ← List.getD_eq_getElem _ 0 h2,
      hig f hfL, hig2 f hfL]
  · exact haz rfl

/-- Witness for C9 (amended): one window of a 3-frame sequence. -/
theorem c9_witness :
    (runTestPass 3 [3] false [[constWindow3]]).inspectionCount
        = (runTestPass 3 [3] true [[constWindow3]]).inspectionCount ∧
    (∀ q ∈ (runTestPass 3 [3] false [[constWindow3]]).anomScores, q = 0) :=
  c9_amended 3 3 [[constWindow3]] (by decide) (by decide) (by decide)
    (by decide) (by decide)

/-- C10: `pixel_aucs` is initialized empty at line 17 of `src/train.py` and
no statement of the loop ever appends to it, so the list persisted to
`pixel_aucs.npy` at line 35 and plotted at line 38 is empty for every run,
whatever `num_iteration`, `print_every` and the evaluation results are. -/
theorem c10_pixel_aucs_empty (n p : Nat) (lossF aucF vlossF : Nat → ℚ) :
    (trainRun n p lossF aucF vlossF).pixel_aucs = [] := by
  obtain ⟨_, _, h3, _⟩ :=
    trainFold_spec p lossF aucF vlossF (List.range (n + 1)) trainInit
  unfold trainRun
  rw [h3]
  rfl
